import Mathlib

/-!
Verification of the rtags `Indexer.cpp` core (repository JamieCunliffe/rtags).

This file shallowly embeds the data model and operations of `src/rdm/Indexer.cpp`:

* byte strings (`QByteArray`) are `List Char`;
* a `QSet<QByteArray>` is a `Finset ByteStr`;
* a `QHash<QByteArray, QSet<QByteArray>>` (the per-category staging maps,
  typedef `HashSet` in the source) is an association list
  `List (ByteStr × Finset ByteStr)`; a `QHash` never holds two entries with
  the same key, and lookup/in-place-insert are modelled first-match-wins;
* a leveldb database is a total function `ByteStr → ByteStr` returning the
  stored value for a key, `[]` when the key is absent (`leveldb::DB::Get`
  leaves the output string empty on a missing key, and `syncData` does not
  check the read status);
* the success of `leveldb::DB::Open` and of `db->Write` (the batch commit)
  are environment effects, passed to the model as explicit booleans.

Definitions follow the source line by line; each is annotated with the
function of `Indexer.cpp` it embeds.
-/

/-- Byte strings (`QByteArray`). -/
abbrev ByteStr := List Char

/-- A persistent store: key to stored value, `[]` when absent. -/
abbrev DB := ByteStr → ByteStr

/-- The `HashSet` typedef of the source: `QHash<QByteArray, QSet<QByteArray>>`,
modelled as an association list with unique keys (first match wins). -/
abbrev StagingMap := List (ByteStr × Finset ByteStr)

/-- `QByteArray::split('\n')`: splits into the (possibly empty) segments
between newline characters.  Splitting an empty array yields `[[]]`, exactly
as Qt's `split` returns a single empty element. -/
def splitOnNl : ByteStr → List ByteStr
  | [] => [[]]
  | c :: rest =>
    if c = '\n' then [] :: splitOnNl rest
    else match splitOnNl rest with
      | [] => [[c]]
      | p :: ps => (c :: p) :: ps

/-- Parsing a stored value, as `syncData` does at lines 79-81 of the source:
split on `'\n'`, take the set of segments, remove the empty string. -/
def parseSet (v : ByteStr) : Finset ByteStr := (splitOnNl v).toFinset.erase []

/-- Concatenate the given elements, each followed by `'\n'` — the
serialisation loop of `syncData` (lines 91-97). -/
def joinNl (l : List ByteStr) : ByteStr := l.foldr (fun x acc => x ++ '\n' :: acc) []

/-- Serialise a set the way `syncData` writes it back: every element followed
by a trailing `'\n'`.  `QSet` iteration order is unspecified; the embedding
fixes the lexicographic order, which no theorem below depends on. -/
def serialize (s : Finset ByteStr) : ByteStr := joinNl (s.sort (· ≤ ·))

/-- The body of the `syncData` loop for one key (lines 74-99): read the
stored value, parse it, and if the staged `set` is not already contained in
it (tested by comparing `|stored ∩ staged|` with `|staged|`), produce the
serialised union as the value to `Put`.  `none` means the skip branch. -/
def syncEntry (db : DB) (key : ByteStr) (set : Finset ByteStr) : Option ByteStr :=
  let stored := parseSet (db key)
  if (stored ∩ set).card = set.card then none
  else some (serialize (stored ∪ set))

/-- The `leveldb::WriteBatch` accumulated by `syncData`: the `Put`s for every
staged key whose skip branch did not fire.  All reads go against the database
as it was when the batch was opened, as in the source. -/
def syncBatch (db : DB) (data : StagingMap) : List (ByteStr × ByteStr) :=
  data.filterMap fun kv => (syncEntry db kv.1 kv.2).map fun v => (kv.1, v)

/-- Committing a write batch: apply the `Put`s in order (later `Put`s to the
same key win, as in leveldb). -/
def applyBatch (db : DB) (batch : List (ByteStr × ByteStr)) : DB :=
  batch.foldl (fun d kv => fun k => if k = kv.1 then kv.2 else d k) db

/-- `IndexerImpl::syncData` (lines 50-106).  `openOk` is whether
`leveldb::DB::Open` succeeded, `commitOk` whether `db->Write` succeeded.
On a failed open the function returns with nothing changed (lines 62-63).
Otherwise it builds the batch, clears the staging map (line 102), and then
commits (line 104).  The third component collects log output: `syncData`
contains no logging statement at all — in particular the status returned by
`db->Write` is discarded unexamined, so a failed commit produces no log
entry.  (The empty-database-name early return at lines 58-59 is dead for the
four real categories, whose names are never empty, and is not modelled.) -/
def syncData (openOk commitOk : Bool) (db : DB) (data : StagingMap) :
    DB × StagingMap × List ByteStr :=
  if openOk then
    ((if commitOk then applyBatch db (syncBatch db data) else db), [], [])
  else
    (db, data, [])

/-- A store holding exactly `"a\n"` at key `"k"`. -/
def dbW : DB := fun k => if k = ['k'] then ['a', '\n'] else []

/-- A staging map staging `{"a"}` at key `"k"`. -/
def dataW : StagingMap := [(['k'], {['a']})]

/-- A staging map staging `{"b"}` at key `"k"` — data not yet stored in `dbW`. -/
def dataN : StagingMap := [(['k'], {['b']})]

/-- `Indexer::Mode`. -/
inductive Mode where
  | normal : Mode
  | force : Mode

/-- `SYNCINTERVAL` (line 18 of the source). -/
def SYNCINTERVAL : Int := 10

/-- The coordinator and staging state of `IndexerImpl` together with the four
persistent stores.  `jobs` models the key set of `QHash<int, IndexerJob*>`
(the job handles themselves carry no coordinator state). -/
structure IndexerState where
  jobs : Finset Int
  indexing : Finset ByteStr
  jobCounter : Int
  lastJobId : Int
  incs : StagingMap
  defs : StagingMap
  refs : StagingMap
  syms : StagingMap
  dbInc : DB
  dbDef : DB
  dbRef : DB
  dbSym : DB

/-- The id-probing loop of `Indexer::index` (lines 401-403): starting from
`start`, return the first id not in `jobs`.  The C++ loop is unbounded but
terminates because `jobs` is finite; the embedding runs it on explicit fuel,
and `freshId` below supplies `jobs.card + 1` steps, which `probeId_not_mem`
proves always suffice, so `freshId` computes exactly what the loop does. -/
def probeId (jobs : Finset Int) : Int → Nat → Int
  | start, 0 => start
  | start, fuel+1 => if start ∈ jobs then probeId jobs (start + 1) fuel else start

/-- The id chosen by `Indexer::index` when probing from `start`. -/
def freshId (jobs : Finset Int) (start : Int) : Int :=
  probeId jobs start (jobs.card + 1)

/-- Whether `leveldb::DB::Open` and `db->Write` succeed for one category's
sync — the environment of one `syncData` call. -/
structure SyncOracle where
  openOk : Bool
  commitOk : Bool

/-- `Indexer::index` (lines 393-414).  Under the coordinator lock: reject
with `-1` when `input` is already being indexed; otherwise probe for the
first free id from `lastJobId`, insert `input` into `indexing`, record the
job under the id, and return the id.  The created `IndexerJob` handle, the
`done` signal connection and the dispatch to `QThreadPool` carry no
coordinator state and are not modelled; `arguments` and `mode` parametrise
only the created job. -/
def index (st : IndexerState) (input : ByteStr) (arguments : List ByteStr)
    (mode : Mode) : Int × IndexerState :=
  if input ∈ st.indexing then (-1, st)
  else
    (freshId st.jobs st.lastJobId,
     { st with indexing := insert input st.indexing,
               jobs := insert (freshId st.jobs st.lastJobId) st.jobs,
               lastJobId := freshId st.jobs st.lastJobId + 1 })

/-- `Indexer::jobDone` (lines 438-458): remove `id` from `jobs` and
`filename` from `indexing`, increment `jobCounter`; when the job map became
empty or the counter reached `SYNCINTERVAL`, run `syncData` over the four
categories (in source order: includes, definitions, references, symbols) and
reset the counter.  The `Bool` result records whether the sync branch ran;
the final `Int` is the argument of the emitted `indexingDone` signal. -/
def jobDone (oInc oDef oRef oSym : SyncOracle) (st : IndexerState) (id : Int)
    (filename : ByteStr) : IndexerState × Bool × Int :=
  if st.jobs.erase id = ∅ ∨ st.jobCounter + 1 = SYNCINTERVAL then
    ({ st with jobs := st.jobs.erase id,
               indexing := st.indexing.erase filename,
               jobCounter := 0,
               incs := (syncData oInc.openOk oInc.commitOk st.dbInc st.incs).2.1,
               defs := (syncData oDef.openOk oDef.commitOk st.dbDef st.defs).2.1,
               refs := (syncData oRef.openOk oRef.commitOk st.dbRef st.refs).2.1,
               syms := (syncData oSym.openOk oSym.commitOk st.dbSym st.syms).2.1,
               dbInc := (syncData oInc.openOk oInc.commitOk st.dbInc st.incs).1,
               dbDef := (syncData oDef.openOk oDef.commitOk st.dbDef st.defs).1,
               dbRef := (syncData oRef.openOk oRef.commitOk st.dbRef st.refs).1,
               dbSym := (syncData oSym.openOk oSym.commitOk st.dbSym st.syms).1 },
     true, id)
  else
    ({ st with jobs := st.jobs.erase id,
               indexing := st.indexing.erase filename,
               jobCounter := st.jobCounter + 1 },
     false, id)

/-- `Indexer::reindex` (lines 416-436).  The `Resource` store is an external
collaborator (spec section 6): for a `filename` it may hold an `Information`
record `[input_path, arg0, arg1, ...]`.  The embedding passes that record as
`record : Option (List ByteStr)`, `none` when `resource.exists` is false.
The source returns `-1` on a missing record, an empty record, or an empty
first element, and otherwise takes the first element off as the input path
and delegates to `index` with the remaining elements as arguments. -/
def reindex (st : IndexerState) (filename : ByteStr) (record : Option (List ByteStr))
    (mode : Mode) : Int × IndexerState :=
  match record with
  | none => (-1, st)
  | some data =>
    match data with
    | [] => (-1, st)
    | input :: args => if input = [] then (-1, st) else index st input args mode

/-- An everywhere-empty store. -/
def dbEmpty : DB := fun _ => []

/-- A concrete coordinator state: two outstanding jobs, counter at 3. -/
def stTwo : IndexerState where
  jobs := {1, 2}
  indexing := {['f']}
  jobCounter := 3
  lastJobId := 3
  incs := []
  defs := []
  refs := []
  syms := []
  dbInc := dbEmpty
  dbDef := dbEmpty
  dbRef := dbEmpty
  dbSym := dbEmpty

/-- A sync environment in which open and commit both succeed. -/
def oracleOk : SyncOracle where
  openOk := true
  commitOk := true

/-- A concrete coordinator state with nothing outstanding. -/
def stIdle : IndexerState where
  jobs := ∅
  indexing := ∅
  jobCounter := 0
  lastJobId := 0
  incs := []
  defs := []
  refs := []
  syms := []
  dbInc := dbEmpty
  dbDef := dbEmpty
  dbRef := dbEmpty
  dbSym := dbEmpty

/-- First-match lookup in a staging map; the empty set when the key is
absent (the read view of `QHash::operator[]`). -/
def mapLookup : StagingMap → ByteStr → Finset ByteStr
  | [], _ => ∅
  | kv :: rest, k => if kv.1 = k then kv.2 else mapLookup rest k

/-- `m[key].insert(v)`: add `v` to the set stored at `key`, creating the
entry when the key is absent (`QHash::operator[]` followed by
`QSet::insert`). -/
def mapInsert : StagingMap → ByteStr → ByteStr → StagingMap
  | [], k, v => [(k, {v})]
  | kv :: rest, k, v =>
    if kv.1 = k then (k, insert v kv.2) :: rest else kv :: mapInsert rest k v

/-- `addInclusion` (lines 136-150): under the include lock, skip when the
resolved inclusion path compares equal (`qstrcmp`) to the job's input path
`m_in`, otherwise insert the input path into the shared include staging map
under the resolved path.  `Path::resolved` is an external collaborator; the
embedding receives the already-resolved path. -/
def addInclusion (jobInput : ByteStr) (incs : StagingMap) (resolvedPath : ByteStr) :
    StagingMap :=
  if resolvedPath = jobInput then incs else mapInsert incs resolvedPath jobInput

/-- No key of a staging map has itself among its values. -/
def selfFree (m : StagingMap) : Prop := ∀ kv ∈ m, kv.1 ∉ kv.2

/-- The USR-absence test of `indexVisitor` (lines 230 and 236): the byte
string is empty or is exactly the sentinel `"c:"`. -/
def usrMissing (u : ByteStr) : Bool := u == [] || u == ['c', ':']

/-- The data libclang reports for one cursor, as far as `indexVisitor`
(lines 213-271) inspects it: whether the kind is `CXXAccessSpecifier`, the
cursor's USR, the USR of the cursor it references (fetched only when the
first is missing), the spelling-location file name together with its
resolved form (`Path::resolved` is an external collaborator), the line and
column, and whether `clang_isCursorDefinition` holds. -/
structure CursorInfo where
  isAccessSpecifier : Bool
  usr : ByteStr
  refUsr : ByteStr
  filename : ByteStr
  resolvedFile : ByteStr
  line : Nat
  col : Nat
  isDefinition : Bool

/-- The location string `"<resolved_file_path>:<line>:<column>"` built at
lines 255-256. -/
def locString (c : CursorInfo) : ByteStr :=
  c.resolvedFile ++ ':' :: Nat.toDigits 10 c.line ++ ':' :: Nat.toDigits 10 c.col

/-- `indexVisitor` (lines 213-271), restricted to its effect on the job's
`m_defs` and `m_refs`: skip access specifiers; take the cursor's USR,
falling back to the referenced cursor's USR when the first is missing, and
record nothing when both are missing; record nothing when the location's
file name is empty or null; otherwise add the location to `m_defs[usr]`
when the cursor is a definition, and to `m_refs[usr]` in every case.
(`addNamePermutations`, called on the definition branch, writes only to
`m_syms`, which no claim depends on, and is not modelled.) -/
def indexVisit (c : CursorInfo) (defs refs : StagingMap) : StagingMap × StagingMap :=
  if c.isAccessSpecifier then (defs, refs)
  else if usrMissing c.usr && usrMissing c.refUsr then (defs, refs)
  else if c.filename = [] then (defs, refs)
  else
    ((if c.isDefinition then
        mapInsert defs (if usrMissing c.usr then c.refUsr else c.usr) (locString c)
      else defs),
     mapInsert refs (if usrMissing c.usr then c.refUsr else c.usr) (locString c))

/-- A cursor as libclang would report for a definition at line 1, column 5
of file `"f"`, with USR `"u"`. -/
def cursorW : CursorInfo where
  isAccessSpecifier := false
  usr := ['u']
  refUsr := []
  filename := ['f']
  resolvedFile := ['f']
  line := 1
  col := 5
  isDefinition := true

/-- Backward character search at or below a start index: the greatest
position `≤ j` (and in range) holding `c`, else `-1` — the scan of Qt's
`QByteArray::lastIndexOf(char, int)` once the start index is normalised. -/
def searchBack (s : ByteStr) (c : Char) : Nat → Int
  | 0 => if h : 0 < s.length then (if s.get ⟨0, h⟩ = c then 0 else -1) else -1
  | j+1 =>
    if h : j + 1 < s.length then
      (if s.get ⟨j + 1, h⟩ = c then ((j : Int) + 1) else searchBack s c j)
    else searchBack s c j

/-- `QByteArray::lastIndexOf(char, int fromIdx)`: a negative `fromIdx`
counts from the end (`-1` is the last byte: Qt adds the size), an
out-of-range positive one is clamped to the last byte, and the result is
`-1` when the character does not occur at or before the start position. -/
def qLastIndexOf (s : ByteStr) (c : Char) (fromIdx : Int) : Int :=
  let sz : Int := s.length
  let f : Int :=
    if fromIdx < 0 then fromIdx + sz else if fromIdx > sz then sz - 1 else fromIdx
  if 0 ≤ f then searchBack s c (min f (sz - 1)).toNat else -1

/-- The backslash-counting inner loop of `IndexerJob::addFilenameSymbol`
(lines 286-289): the number of consecutive `'\\'` characters immediately
before position `idx`, never scanning below position 0 (the `idx > 0`
guard).  It receives `idx.toNat`, so an `idx` of `-1` or `0` yields 0,
exactly as the C++ loop body never runs then. -/
def bsCount (s : ByteStr) : Nat → Nat
  | 0 => 0
  | j+1 => if s.get? j = some '\\' then bsCount s j + 1 else 0

/-- One iteration of the `for (;;)` loop of `IndexerJob::addFilenameSymbol`
(lines 283-298) on the loop variable `idx`: find the last `'/'` at or
before `idx` (from the end when `idx` is negative), count the backslashes
immediately preceding it and step below them, then either continue with a
new `idx` (`Sum.inl`, the escaped-slash/at-start branch when the decremented
index is nonzero) or leave the loop with a final `idx` (`Sum.inr`). -/
def filenameLoopStep (filename : ByteStr) (idx : Int) : Sum Int Int :=
  let found := qLastIndexOf filename '/' idx
  let b := bsCount filename found.toNat
  let afterScan := found - b
  if b % 2 = 1 ∨ afterScan = 0 then
    (if afterScan - 1 = 0 then Sum.inr 0 else Sum.inl (afterScan - 1))
  else
    Sum.inr (afterScan + b)

/-- The loop of `addFilenameSymbol`, run on explicit fuel: `none` when the
loop has not left after `fuel` iterations.  The C++ loop is unbounded, so
an execution whose every fuel yields `none` never terminates. -/
def filenameLoop (filename : ByteStr) : Nat → Int → Option Int
  | 0, _ => none
  | fuel+1, idx =>
    match filenameLoopStep filename idx with
    | Sum.inl next => filenameLoop filename fuel next
    | Sum.inr r => some r

/-- `IndexerJob::addFilenameSymbol` (lines 279-302): run the loop from
`idx = -1`; when it leaves with `-1` insert nothing (no slash), otherwise
insert `filename.mid(idx + 1) → {filename}` into `m_syms`. -/
def addFilenameSymbol (syms : StagingMap) (filename : ByteStr) (fuel : Nat) :
    Option StagingMap :=
  match filenameLoop filename fuel (-1) with
  | none => none
  | some idx =>
    some (if idx = -1 then syms
          else mapInsert syms (filename.drop (idx + 1).toNat) filename)

/-- The byte string `"/a.c"` — a file directly in the root directory. -/
def slashAC : ByteStr := ['/', 'a', '.', 'c']

/-- A staging map holding the single location `"L"` for the USR `"u"` —
used as both the definition and the reference staging map, so the job-local
inclusion of definitions in references holds with equality. -/
def stagedUL : StagingMap := [(['u'], {['L']})]

-- ### Theorems

theorem splitOnNl_ne_nil (s : ByteStr) : splitOnNl s ≠ [] := by
  cases s with
  | nil => simp [splitOnNl]
  | cons c rest =>
    rw [splitOnNl]
    by_cases h : c = '\n'
    · simp [h]
    · simp only [if_neg h]
      rcases hr : splitOnNl rest with _ | ⟨p, ps⟩ <;> simp

theorem splitOnNl_append_nl (x t : ByteStr) :
    splitOnNl (x ++ '\n' :: t) = splitOnNl x ++ splitOnNl t := by
  induction x with
  | nil => simp [splitOnNl]
  | cons c x ih =>
    by_cases h : c = '\n'
    · simp [splitOnNl, h, ih]
    · rw [List.cons_append, splitOnNl, if_neg h, splitOnNl, if_neg h, ih]
      rcases hx : splitOnNl x with _ | ⟨p, ps⟩
      · exact absurd hx (splitOnNl_ne_nil x)
      · simp

theorem mem_splitOnNl_no_nl (s : ByteStr) :
    ∀ p ∈ splitOnNl s, '\n' ∉ p := by
  induction s with
  | nil =>
    intro p hp
    rw [splitOnNl, List.mem_singleton] at hp
    subst hp
    exact List.not_mem_nil _
  | cons c rest ih =>
    intro p hp
    rw [splitOnNl] at hp
    by_cases h : c = '\n'
    · rw [if_pos h, List.mem_cons] at hp
      rcases hp with rfl | hp
      · exact List.not_mem_nil _
      · exact ih p hp
    · rw [if_neg h] at hp
      rcases hx : splitOnNl rest with _ | ⟨q, qs⟩
      · exact absurd hx (splitOnNl_ne_nil rest)
      · rw [hx, List.mem_cons] at hp
        rcases hp with rfl | hp
        · intro hc
          rcases List.mem_cons.mp hc with hc | hc
          · exact h hc.symm
          · exact ih q (by rw [hx]; exact List.mem_cons_self q qs) hc
        · exact ih p (by rw [hx]; exact List.mem_cons_of_mem q hp)

theorem splitOnNl_of_no_nl (x : ByteStr) (h : '\n' ∉ x) : splitOnNl x = [x] := by
  induction x with
  | nil => rfl
  | cons c rest ih =>
    have hc : c ≠ '\n' := fun hc => h (hc ▸ List.mem_cons_self c rest)
    have hrest : '\n' ∉ rest := fun hr => h (List.mem_cons_of_mem c hr)
    rw [splitOnNl, if_neg hc, ih hrest]

theorem splitOnNl_joinNl (l : List ByteStr) :
    splitOnNl (joinNl l) = (l.map splitOnNl).flatten ++ [[]] := by
  induction l with
  | nil => rfl
  | cons x rest ih =>
    show splitOnNl (x ++ '\n' :: joinNl rest) = _
    rw [splitOnNl_append_nl, ih]
    simp

theorem mem_parseSet_iff (y v : ByteStr) :
    y ∈ parseSet v ↔ y ∈ splitOnNl v ∧ y ≠ [] := by
  unfold parseSet
  rw [Finset.mem_erase, List.mem_toFinset, and_comm]

theorem mem_parseSet_no_nl (y v : ByteStr) (h : y ∈ parseSet v) : '\n' ∉ y :=
  mem_splitOnNl_no_nl v y ((mem_parseSet_iff y v).mp h).1

theorem mem_parseSet_ne_nil (y v : ByteStr) (h : y ∈ parseSet v) : y ≠ [] :=
  ((mem_parseSet_iff y v).mp h).2

theorem mem_parseSet_serialize (s : Finset ByteStr) (x : ByteStr)
    (hx : x ∈ s) (hne : x ≠ []) (hnl : '\n' ∉ x) : x ∈ parseSet (serialize s) := by
  rw [mem_parseSet_iff]
  refine ⟨?_, hne⟩
  unfold serialize
  rw [splitOnNl_joinNl]
  apply List.mem_append_left
  rw [List.mem_flatten]
  refine ⟨[x], ?_, List.mem_singleton_self x⟩
  rw [List.mem_map]
  exact ⟨x, (Finset.mem_sort _).mpr hx, splitOnNl_of_no_nl x hnl⟩

theorem mem_parseSet_serialize_elim (s : Finset ByteStr) (y : ByteStr)
    (hy : y ∈ parseSet (serialize s)) : ∃ x ∈ s, y ∈ splitOnNl x := by
  rw [mem_parseSet_iff] at hy
  obtain ⟨hmem, hne⟩ := hy
  unfold serialize at hmem
  rw [splitOnNl_joinNl] at hmem
  rcases List.mem_append.mp hmem with h | h
  · rw [List.mem_flatten] at h
    obtain ⟨l, hl, hyl⟩ := h
    rw [List.mem_map] at hl
    obtain ⟨x, hxs, rfl⟩ := hl
    exact ⟨x, (Finset.mem_sort _).mp hxs, hyl⟩
  · rw [List.mem_singleton] at h
    exact absurd h hne

theorem parseSet_serialize_eq (s : Finset ByteStr) (hnl : ∀ x ∈ s, '\n' ∉ x) :
    parseSet (serialize s) = s.erase [] := by
  ext y
  constructor
  · intro hy
    obtain ⟨x, hxs, hyx⟩ := mem_parseSet_serialize_elim s y hy
    rw [splitOnNl_of_no_nl x (hnl x hxs), List.mem_singleton] at hyx
    subst hyx
    exact Finset.mem_erase.mpr ⟨mem_parseSet_ne_nil _ _ hy, hxs⟩
  · intro hy
    obtain ⟨hne, hxs⟩ := Finset.mem_erase.mp hy
    exact mem_parseSet_serialize s y hxs hne (hnl y hxs)

theorem applyBatch_eq_or_mem (batch : List (ByteStr × ByteStr)) :
    ∀ (db : DB) (k : ByteStr),
      applyBatch db batch k = db k ∨
        ∃ p ∈ batch, p.1 = k ∧ applyBatch db batch k = p.2 := by
  induction batch with
  | nil => intro db k; left; rfl
  | cons q rest ih =>
    intro db k
    show applyBatch (fun k' => if k' = q.1 then q.2 else db k') rest k = db k ∨ _
    rcases ih (fun k' => if k' = q.1 then q.2 else db k') k with h | ⟨p, hp, hpk, hval⟩
    · by_cases hk : k = q.1
      · right
        refine ⟨q, List.mem_cons_self q rest, hk.symm, ?_⟩
        show applyBatch (fun k' => if k' = q.1 then q.2 else db k') rest k = q.2
        rw [h, if_pos hk]
      · left
        rw [h, if_neg hk]
    · right
      exact ⟨p, List.mem_cons_of_mem q hp, hpk, hval⟩

theorem applyBatch_no_key (batch : List (ByteStr × ByteStr)) :
    ∀ (db : DB) (k : ByteStr), (∀ p ∈ batch, p.1 ≠ k) →
      applyBatch db batch k = db k := by
  induction batch with
  | nil => intro db k _; rfl
  | cons q rest ih =>
    intro db k h
    show applyBatch (fun k' => if k' = q.1 then q.2 else db k') rest k = db k
    rw [ih _ k (fun p hp => h p (List.mem_cons_of_mem q hp))]
    rw [if_neg (fun hk : k = q.1 => h q (List.mem_cons_self q rest) hk.symm)]

theorem applyBatch_append (db : DB) (b1 b2 : List (ByteStr × ByteStr)) :
    applyBatch db (b1 ++ b2) = applyBatch (applyBatch db b1) b2 := by
  unfold applyBatch
  rw [List.foldl_append]

theorem applyBatch_last (db : DB) (l1 l2 : List (ByteStr × ByteStr))
    (k v : ByteStr) (h2 : ∀ p ∈ l2, p.1 ≠ k) :
    applyBatch db (l1 ++ (k, v) :: l2) k = v := by
  rw [applyBatch_append]
  show applyBatch (applyBatch (applyBatch db l1) [(k, v)]) l2 k = v
  rw [applyBatch_no_key l2 _ k h2]
  show (if k = k then v else applyBatch db l1 k) = v
  rw [if_pos rfl]

theorem syncEntry_none_iff (db : DB) (key : ByteStr) (set : Finset ByteStr) :
    syncEntry db key set = none ↔ set ⊆ parseSet (db key) := by
  unfold syncEntry
  constructor
  · intro h
    by_cases hc : (parseSet (db key) ∩ set).card = set.card
    · have h1 : parseSet (db key) ∩ set ⊆ set := Finset.inter_subset_right
      have h2 : parseSet (db key) ∩ set = set :=
        Finset.eq_of_subset_of_card_le h1 (le_of_eq hc.symm)
      rw [← h2]
      exact Finset.inter_subset_left
    · rw [if_neg hc] at h
      exact absurd h (Option.some_ne_none _)
  · intro h
    rw [if_pos (by rw [Finset.inter_eq_right.mpr h])]

theorem syncEntry_some (db : DB) (key : ByteStr) (set : Finset ByteStr)
    (v : ByteStr) (h : syncEntry db key set = some v) :
    v = serialize (parseSet (db key) ∪ set) := by
  unfold syncEntry at h
  by_cases hc : (parseSet (db key) ∩ set).card = set.card
  · rw [if_pos hc] at h
    exact absurd h (by exact fun h => Option.noConfusion h)
  · rw [if_neg hc] at h
    exact (Option.some_injective _ h).symm

theorem mem_syncBatch (db : DB) (data : StagingMap) (p : ByteStr × ByteStr)
    (hp : p ∈ syncBatch db data) :
    ∃ s, (p.1, s) ∈ data ∧ syncEntry db p.1 s = some p.2 := by
  unfold syncBatch at hp
  rw [List.mem_filterMap] at hp
  obtain ⟨kv, hkv, heq⟩ := hp
  rcases he : syncEntry db kv.1 kv.2 with _ | v
  · rw [he] at heq
    exact absurd heq (by exact fun h => Option.noConfusion h)
  · rw [he] at heq
    have hkvp : (kv.1, v) = p := Option.some_injective _ heq
    subst hkvp
    exact ⟨kv.2, hkv, he⟩

theorem parseSet_applyBatch_mono (db : DB) (data : StagingMap) (k : ByteStr) :
    parseSet (db k) ⊆ parseSet (applyBatch db (syncBatch db data) k) := by
  rcases applyBatch_eq_or_mem (syncBatch db data) db k with h | ⟨p, hp, hpk, hval⟩
  · rw [h]
  · obtain ⟨s, hs, he⟩ := mem_syncBatch db data p hp
    have hv := syncEntry_some db p.1 s p.2 he
    rw [hval, hv, hpk]
    intro y hy
    exact mem_parseSet_serialize _ y (Finset.mem_union_left _ hy)
      (mem_parseSet_ne_nil y _ hy) (mem_parseSet_no_nl y _ hy)

/-- Claim C1: monotonic union of the persistent stores.  For every key, and
whatever the open/commit outcomes, the set parsed from the stored value
after `syncData` is a superset of the set parsed before it: entries are
only ever added by a sync, never removed. -/
theorem sync_monotonic_union (openOk commitOk : Bool) (db : DB) (data : StagingMap)
    (k : ByteStr) :
    parseSet (db k) ⊆ parseSet ((syncData openOk commitOk db data).1 k) := by
  unfold syncData
  cases openOk with
  | false => exact fun y hy => hy
  | true =>
    cases commitOk with
    | false => exact fun y hy => hy
    | true => exact parseSet_applyBatch_mono db data k

theorem inter_card_iff_subset (t s : Finset ByteStr) :
    (t ∩ s).card = s.card ↔ s ⊆ t := by
  constructor
  · intro hc
    have h1 : t ∩ s ⊆ s := Finset.inter_subset_right
    have h2 : t ∩ s = s := Finset.eq_of_subset_of_card_le h1 (le_of_eq hc.symm)
    rw [← h2]
    exact Finset.inter_subset_left
  · intro hsub
    rw [Finset.inter_eq_right.mpr hsub]

/-- Claim C2: idempotent no-op skip.  The skip test of `syncData`
(`|stored ∩ staged| == |staged|`) is equivalent to the staged set being a
subset of the stored set; when it holds for every staged key, no `Put` is
added to the write batch and the database is completely unchanged by the
sync, so re-syncing already-persisted data performs zero writes. -/
theorem sync_idempotent_skip (db : DB) (data : StagingMap)
    (h : ∀ kv ∈ data, kv.2 ⊆ parseSet (db kv.1)) :
    (∀ key set, ((parseSet (db key) ∩ set).card = set.card ↔ set ⊆ parseSet (db key))) ∧
    (∀ kv ∈ data, syncEntry db kv.1 kv.2 = none) ∧
    syncBatch db data = [] ∧
    ∀ commitOk, (syncData true commitOk db data).1 = db := by
  have hnone : ∀ kv ∈ data, syncEntry db kv.1 kv.2 = none := fun kv hkv =>
    (syncEntry_none_iff db kv.1 kv.2).mpr (h kv hkv)
  have hbatch : syncBatch db data = [] := by
    unfold syncBatch
    rw [List.filterMap_eq_nil_iff]
    intro kv hkv
    rw [hnone kv hkv]
    rfl
  refine ⟨fun key set => inter_card_iff_subset _ _, hnone, hbatch, fun ck => ?_⟩
  cases ck with
  | false => rfl
  | true =>
    show applyBatch db (syncBatch db data) = db
    rw [hbatch]
    rfl

/-- Witness for claim C2: for the store `dbW` that already holds `"a"` at
key `"k"`, staging `{"a"}` at `"k"` produces an empty write batch. -/
theorem sync_idempotent_skip_witness :
    (∀ kv ∈ dataW, kv.2 ⊆ parseSet (dbW kv.1)) ∧ syncBatch dbW dataW = [] := by
  have h : ∀ kv ∈ dataW, kv.2 ⊆ parseSet (dbW kv.1) := by decide
  exact ⟨h, (sync_idempotent_skip dbW dataW h).2.2.1⟩

/-- Claim C10: frame property of sync.  A sync only ever writes to keys
present in the staging map it is given; the stored value at every key not
among the staged keys is byte-for-byte unchanged, whatever the open/commit
outcomes. -/
theorem sync_frame (openOk commitOk : Bool) (db : DB) (data : StagingMap)
    (k : ByteStr) (h : ∀ kv ∈ data, kv.1 ≠ k) :
    (syncData openOk commitOk db data).1 k = db k := by
  unfold syncData
  cases openOk with
  | false => rfl
  | true =>
    cases commitOk with
    | false => rfl
    | true =>
      show applyBatch db (syncBatch db data) k = db k
      apply applyBatch_no_key
      intro p hp
      obtain ⟨s, hs, _⟩ := mem_syncBatch db data p hp
      exact h (p.1, s) hs

/-- Witness for claim C10: syncing a staging map whose only key is `"k"`
leaves the stored value at the absent key `"z"` unchanged. -/
theorem sync_frame_witness :
    (∀ kv ∈ dataW, kv.1 ≠ ['z']) ∧ (syncData true true dbW dataW).1 ['z'] = dbW ['z'] := by
  have h : ∀ kv ∈ dataW, kv.1 ≠ ['z'] := by decide
  exact ⟨h, sync_frame true true dbW dataW ['z'] h⟩

/-- Counterexample for claim C5 as stated: `syncData` never logs anything —
the status of `db->Write` is discarded (line 104 of the source), so a failed
batch commit produces no log entry, while the nonempty staging map is
cleared and the database is left unchanged: the staged entries are silently
lost. -/
theorem sync_commit_fail_unlogged :
    dataN ≠ [] ∧ syncData true false dbW dataN = (dbW, [], []) := by
  constructor
  · decide
  · rfl

/-- Claim C5 (amended): after any sync in which the database open succeeded
the staging map is empty regardless of the commit outcome (it is cleared
before the batch is committed); on a failed commit the database is unchanged
while the staging map is already empty, so the staged entries are lost, and
no log entry is produced (the commit status is never examined). -/
theorem sync_commit_fail_semantics (db : DB) (data : StagingMap) :
    (∀ commitOk, (syncData true commitOk db data).2.1 = []) ∧
    (syncData true false db data).1 = db ∧
    (∀ openOk commitOk, (syncData openOk commitOk db data).2.2 = []) := by
  refine ⟨fun ck => rfl, rfl, fun ok ck => ?_⟩
  cases ok with
  | false => rfl
  | true => rfl

theorem probeId_ge (jobs : Finset Int) :
    ∀ (fuel : Nat) (start : Int), start ≤ probeId jobs start fuel := by
  intro fuel
  induction fuel with
  | zero => intro start; exact le_refl start
  | succ f ih =>
    intro start
    rw [probeId]
    by_cases h : start ∈ jobs
    · rw [if_pos h]
      exact le_trans (by omega) (ih (start + 1))
    · rw [if_neg h]

theorem probeId_not_mem (jobs : Finset Int) :
    ∀ (fuel : Nat) (start : Int),
      (∃ k : Nat, k < fuel ∧ start + (k : Int) ∉ jobs) →
      probeId jobs start fuel ∉ jobs := by
  intro fuel
  induction fuel with
  | zero =>
    intro start ⟨k, hk, _⟩
    exact absurd hk (Nat.not_lt_zero k)
  | succ f ih =>
    intro start ⟨k, hk, hfree⟩
    rw [probeId]
    by_cases h : start ∈ jobs
    · rw [if_pos h]
      apply ih (start + 1)
      cases k with
      | zero => exact absurd (by simpa using hfree) (by simpa using h)
      | succ j =>
        refine ⟨j, by omega, ?_⟩
        have : start + 1 + (j : Int) = start + ((j : Nat) + 1 : Nat) := by push_cast; ring
        rw [this]
        exact hfree
    · rw [if_neg h]
      exact h

theorem exists_free_id (jobs : Finset Int) (start : Int) :
    ∃ k : Nat, k < jobs.card + 1 ∧ start + (k : Int) ∉ jobs := by
  by_contra hall
  push_neg at hall
  have hsub : (Finset.range (jobs.card + 1)).image (fun k : Nat => start + (k : Int)) ⊆ jobs := by
    intro x hx
    rw [Finset.mem_image] at hx
    obtain ⟨k, hk, rfl⟩ := hx
    exact hall k (Finset.mem_range.mp hk)
  have hinj : Function.Injective (fun k : Nat => start + (k : Int)) := by
    intro a b hab
    simp only [add_right_inj, Int.natCast_inj] at hab
    exact hab
  have hcard := Finset.card_le_card hsub
  rw [Finset.card_image_of_injective _ hinj, Finset.card_range] at hcard
  omega

theorem freshId_not_mem (jobs : Finset Int) (start : Int) :
    freshId jobs start ∉ jobs :=
  probeId_not_mem jobs (jobs.card + 1) start (exists_free_id jobs start)

theorem freshId_ge (jobs : Finset Int) (start : Int) : start ≤ freshId jobs start :=
  probeId_ge jobs (jobs.card + 1) start

/-- Claim C3: completion handling.  `jobDone` removes `id` from the job map
and `filename` from the indexing set, and runs the sync of all four
categories exactly when the job map became empty or the incremented counter
reached `SYNCINTERVAL = 10`; when the sync branch runs the counter is reset
to `0` (and each category's store/staging pair is the result of its
`syncData` call), otherwise the counter keeps its incremented value and
staging maps and stores are untouched; in every case the `indexingDone`
signal carries `id`. -/
theorem jobDone_spec (oInc oDef oRef oSym : SyncOracle) (st : IndexerState)
    (id : Int) (filename : ByteStr) :
    ((jobDone oInc oDef oRef oSym st id filename).1.jobs = st.jobs.erase id) ∧
    ((jobDone oInc oDef oRef oSym st id filename).1.indexing = st.indexing.erase filename) ∧
    ((jobDone oInc oDef oRef oSym st id filename).2.1 = true ↔
      (st.jobs.erase id = ∅ ∨ st.jobCounter + 1 = SYNCINTERVAL)) ∧
    ((jobDone oInc oDef oRef oSym st id filename).2.1 = true →
      (jobDone oInc oDef oRef oSym st id filename).1.jobCounter = 0 ∧
      (jobDone oInc oDef oRef oSym st id filename).1.incs =
        (syncData oInc.openOk oInc.commitOk st.dbInc st.incs).2.1 ∧
      (jobDone oInc oDef oRef oSym st id filename).1.defs =
        (syncData oDef.openOk oDef.commitOk st.dbDef st.defs).2.1 ∧
      (jobDone oInc oDef oRef oSym st id filename).1.refs =
        (syncData oRef.openOk oRef.commitOk st.dbRef st.refs).2.1 ∧
      (jobDone oInc oDef oRef oSym st id filename).1.syms =
        (syncData oSym.openOk oSym.commitOk st.dbSym st.syms).2.1 ∧
      (jobDone oInc oDef oRef oSym st id filename).1.dbInc =
        (syncData oInc.openOk oInc.commitOk st.dbInc st.incs).1 ∧
      (jobDone oInc oDef oRef oSym st id filename).1.dbDef =
        (syncData oDef.openOk oDef.commitOk st.dbDef st.defs).1 ∧
      (jobDone oInc oDef oRef oSym st id filename).1.dbRef =
        (syncData oRef.openOk oRef.commitOk st.dbRef st.refs).1 ∧
      (jobDone oInc oDef oRef oSym st id filename).1.dbSym =
        (syncData oSym.openOk oSym.commitOk st.dbSym st.syms).1) ∧
    ((jobDone oInc oDef oRef oSym st id filename).2.1 = false →
      (jobDone oInc oDef oRef oSym st id filename).1.jobCounter = st.jobCounter + 1 ∧
      (jobDone oInc oDef oRef oSym st id filename).1.incs = st.incs ∧
      (jobDone oInc oDef oRef oSym st id filename).1.defs = st.defs ∧
      (jobDone oInc oDef oRef oSym st id filename).1.refs = st.refs ∧
      (jobDone oInc oDef oRef oSym st id filename).1.syms = st.syms ∧
      (jobDone oInc oDef oRef oSym st id filename).1.dbInc = st.dbInc ∧
      (jobDone oInc oDef oRef oSym st id filename).1.dbDef = st.dbDef ∧
      (jobDone oInc oDef oRef oSym st id filename).1.dbRef = st.dbRef ∧
      (jobDone oInc oDef oRef oSym st id filename).1.dbSym = st.dbSym) ∧
    ((jobDone oInc oDef oRef oSym st id filename).2.2 = id) := by
  unfold jobDone
  by_cases h : st.jobs.erase id = ∅ ∨ st.jobCounter + 1 = SYNCINTERVAL
  · rw [if_pos h]
    exact ⟨rfl, rfl, ⟨fun _ => h, fun _ => rfl⟩,
      fun _ => ⟨rfl, rfl, rfl, rfl, rfl, rfl, rfl, rfl, rfl⟩,
      fun hf => Bool.noConfusion hf, rfl⟩
  · rw [if_neg h]
    exact ⟨rfl, rfl, ⟨fun ht => Bool.noConfusion ht, fun hc => absurd hc h⟩,
      fun ht => Bool.noConfusion ht,
      fun _ => ⟨rfl, rfl, rfl, rfl, rfl, rfl, rfl, rfl, rfl⟩, rfl⟩

/-- Witness for claim C3: completing job 1 of `stTwo` leaves job 2
outstanding with counter 4 (no sync: neither condition holds), and the
emitted notification carries the id. -/
theorem jobDone_spec_witness :
    ((jobDone oracleOk oracleOk oracleOk oracleOk stTwo 1 ['f']).1.jobs =
      stTwo.jobs.erase 1) ∧
    ¬(stTwo.jobs.erase 1 = ∅ ∨ stTwo.jobCounter + 1 = SYNCINTERVAL) ∧
    ((jobDone oracleOk oracleOk oracleOk oracleOk stTwo 1 ['f']).2.1 = false) ∧
    ((jobDone oracleOk oracleOk oracleOk oracleOk stTwo 1 ['f']).2.2 = 1) := by
  have h := jobDone_spec oracleOk oracleOk oracleOk oracleOk stTwo 1 ['f']
  have hcond : ¬(stTwo.jobs.erase 1 = ∅ ∨ stTwo.jobCounter + 1 = SYNCINTERVAL) := by decide
  refine ⟨h.1, hcond, ?_, h.2.2.2.2.2⟩
  cases hb : (jobDone oracleOk oracleOk oracleOk oracleOk stTwo 1 ['f']).2.1 with
  | false => rfl
  | true => exact absurd (h.2.2.1.mp hb) hcond

/-- Claim C4: admission with de-duplication.  Starting from any state whose
id generator is non-negative (as in every reachable state): `index` returns
`-1` exactly when `input` is already in the indexing set, and it leaves the
state untouched in that case; otherwise it returns a non-negative id that is
not a key of the job map, inserts `input` into the indexing set, records the
job under the returned id, and advances the id generator past it. -/
theorem index_spec (st : IndexerState) (input : ByteStr) (arguments : List ByteStr)
    (mode : Mode) (hlast : 0 ≤ st.lastJobId) :
    ((index st input arguments mode).1 = -1 ↔ input ∈ st.indexing) ∧
    (input ∈ st.indexing → index st input arguments mode = (-1, st)) ∧
    (input ∉ st.indexing →
      (index st input arguments mode).1 ∉ st.jobs ∧
      0 ≤ (index st input arguments mode).1 ∧
      (index st input arguments mode).2.indexing = insert input st.indexing ∧
      (index st input arguments mode).2.jobs =
        insert (index st input arguments mode).1 st.jobs ∧
      (index st input arguments mode).2.lastJobId =
        (index st input arguments mode).1 + 1) := by
  unfold index
  by_cases hmem : input ∈ st.indexing
  · rw [if_pos hmem]
    exact ⟨⟨fun _ => hmem, fun _ => rfl⟩, fun _ => rfl, fun hn => absurd hmem hn⟩
  · rw [if_neg hmem]
    have hge : 0 ≤ freshId st.jobs st.lastJobId :=
      le_trans hlast (freshId_ge st.jobs st.lastJobId)
    refine ⟨⟨fun hneg => ?_, fun hin => absurd hin hmem⟩, fun hin => absurd hin hmem,
      fun _ => ⟨freshId_not_mem st.jobs st.lastJobId, hge, rfl, rfl, rfl⟩⟩
    rw [show ((freshId st.jobs st.lastJobId,
      { st with indexing := insert input st.indexing,
                jobs := insert (freshId st.jobs st.lastJobId) st.jobs,
                lastJobId := freshId st.jobs st.lastJobId + 1 }) :
        Int × IndexerState).1 = freshId st.jobs st.lastJobId from rfl] at hneg
    omega

/-- Witness for claim C4: admitting `"a"` into the idle state succeeds (no
`-1`), and the chosen id is fresh. -/
theorem index_spec_witness :
    (0 ≤ stIdle.lastJobId) ∧
    ¬((index stIdle ['a'] [] Mode.normal).1 = -1) ∧
    (index stIdle ['a'] [] Mode.normal).1 ∉ stIdle.jobs := by
  have h := index_spec stIdle ['a'] [] Mode.normal (by decide)
  have hnotmem : (['a'] : ByteStr) ∉ stIdle.indexing := by decide
  refine ⟨by decide, fun hneg => hnotmem (h.1.mp hneg), (h.2.2 hnotmem).1⟩

/-- Claim C9: reindex rejection.  `reindex` returns `-1` (leaving the state
unchanged) when the Information record is missing, is an empty list, or has
an empty first element; otherwise it delegates to `index` with the record's
first element as the input path and the remaining elements as the compile
arguments, returning exactly what `index` returns. -/
theorem reindex_spec (st : IndexerState) (filename : ByteStr) (mode : Mode) :
    reindex st filename none mode = (-1, st) ∧
    reindex st filename (some []) mode = (-1, st) ∧
    (∀ args, reindex st filename (some ([] :: args)) mode = (-1, st)) ∧
    (∀ input args, input ≠ [] →
      reindex st filename (some (input :: args)) mode = index st input args mode) := by
  refine ⟨rfl, rfl, fun args => rfl, fun input args h => ?_⟩
  show (if input = [] then ((-1 : Int), st) else index st input args mode) =
    index st input args mode
  rw [if_neg h]

/-- Witness for claim C9: a record holding input `"a"` and one argument
delegates to `index`. -/
theorem reindex_spec_witness :
    (['a'] : ByteStr) ≠ [] ∧
    reindex stIdle ['f'] (some [['a'], ['x']]) Mode.normal =
      index stIdle ['a'] [['x']] Mode.normal := by
  exact ⟨by decide, (reindex_spec stIdle ['f'] Mode.normal).2.2.2 ['a'] [['x']] (by decide)⟩

theorem mapLookup_mapInsert_self (m : StagingMap) (k v : ByteStr) :
    mapLookup (mapInsert m k v) k = insert v (mapLookup m k) := by
  induction m with
  | nil =>
    show mapLookup [(k, {v})] k = insert v ∅
    rw [mapLookup, if_pos rfl]
    simp
  | cons kv rest ih =>
    rw [mapInsert]
    by_cases h : kv.1 = k
    · rw [if_pos h, mapLookup, if_pos rfl, mapLookup, if_pos h]
    · rw [if_neg h, mapLookup, if_neg h, mapLookup, if_neg h, ih]

theorem mapLookup_mapInsert_other (m : StagingMap) (k v k' : ByteStr) (h : k ≠ k') :
    mapLookup (mapInsert m k v) k' = mapLookup m k' := by
  induction m with
  | nil =>
    show mapLookup [(k, {v})] k' = ∅
    rw [mapLookup, if_neg h, mapLookup]
  | cons kv rest ih =>
    rw [mapInsert]
    by_cases hk : kv.1 = k
    · rw [if_pos hk, mapLookup, if_neg h, mapLookup, if_neg (hk ▸ h : kv.1 ≠ k')]
    · rw [if_neg hk, mapLookup, mapLookup]
      by_cases hk' : kv.1 = k'
      · rw [if_pos hk', if_pos hk']
      · rw [if_neg hk', if_neg hk', ih]

theorem mapInsert_selfFree (m : StagingMap) (k v : ByteStr) (hvk : v ≠ k)
    (h : selfFree m) : selfFree (mapInsert m k v) := by
  induction m with
  | nil =>
    intro kv hkv
    rw [mapInsert, List.mem_singleton] at hkv
    subst hkv
    rw [Finset.mem_singleton]
    exact fun hk => hvk hk.symm
  | cons kv0 rest ih =>
    intro kv hkv
    rw [mapInsert] at hkv
    by_cases h0 : kv0.1 = k
    · rw [if_pos h0, List.mem_cons] at hkv
      rcases hkv with rfl | hkv
      · rw [Finset.mem_insert]
        intro hc
        rcases hc with hc | hc
        · exact hvk hc.symm
        · exact h kv0 (List.mem_cons_self kv0 rest) (h0 ▸ hc)
      · exact h kv (List.mem_cons_of_mem kv0 hkv)
    · rw [if_neg h0, List.mem_cons] at hkv
      rcases hkv with rfl | hkv
      · exact h kv (List.mem_cons_self kv rest)
      · exact ih (fun kv' hkv' => h kv' (List.mem_cons_of_mem kv0 hkv')) kv hkv

/-- Claim C6: no self-include.  `addInclusion` preserves the invariant that
no key of the include staging map has itself among its values (the resolved
path equal to the job's input is skipped, and every other insertion stores
the input under a different key); and syncing an include staging map with
that invariant into a store whose parsed set at `k` does not contain `k`
(with newline-free staged paths) yields a store whose parsed set at `k`
still does not contain `k` — `input` never appears in `D_Include[input]`. -/
theorem no_self_include :
    (∀ jobInput incs resolvedPath, selfFree incs →
      selfFree (addInclusion jobInput incs resolvedPath)) ∧
    (∀ (openOk commitOk : Bool) (db : DB) (incs : StagingMap) (k : ByteStr),
      selfFree incs →
      (∀ kv ∈ incs, ∀ v ∈ kv.2, '\n' ∉ v) →
      k ∉ parseSet (db k) →
      k ∉ parseSet ((syncData openOk commitOk db incs).1 k)) := by
  constructor
  · intro jobInput incs resolvedPath h
    unfold addInclusion
    by_cases hp : resolvedPath = jobInput
    · rw [if_pos hp]
      exact h
    · rw [if_neg hp]
      exact mapInsert_selfFree incs resolvedPath jobInput
        (fun hc => hp hc.symm) h
  · intro openOk commitOk db incs k hself hnl hk
    unfold syncData
    cases openOk with
    | false => exact hk
    | true =>
      cases commitOk with
      | false => exact hk
      | true =>
        show k ∉ parseSet (applyBatch db (syncBatch db incs) k)
        rcases applyBatch_eq_or_mem (syncBatch db incs) db k with h | ⟨p, hp, hpk, hval⟩
        · rw [h]
          exact hk
        · rw [hval]
          obtain ⟨s, hs, he⟩ := mem_syncBatch db incs p hp
          rw [syncEntry_some db p.1 s p.2 he]
          intro hmem
          obtain ⟨x, hx, hkx⟩ := mem_parseSet_serialize_elim _ k hmem
          rcases Finset.mem_union.mp hx with hx | hx
          · rw [splitOnNl_of_no_nl x (mem_parseSet_no_nl x _ hx),
              List.mem_singleton] at hkx
            rw [← hkx, hpk] at hx
            exact hk hx
          · rw [splitOnNl_of_no_nl x (hnl (p.1, s) hs x hx),
              List.mem_singleton] at hkx
            rw [← hkx] at hx
            exact (hpk ▸ hself (p.1, s) hs) hx

/-- Witness for claim C6: job `"a"` including `"b"` keeps the include map
self-free, and after a successful sync the store at key `"b"` does not
contain `"b"`. -/
theorem no_self_include_witness :
    selfFree (addInclusion ['a'] [] ['b']) ∧
    (['b'] : ByteStr) ∉ parseSet ((syncData true true dbEmpty [(['b'], {['a']})]).1 ['b']) := by
  refine ⟨no_self_include.1 ['a'] [] ['b'] ?_, no_self_include.2 true true dbEmpty
    [(['b'], {['a']})] ['b'] ?_ ?_ ?_⟩
  · intro kv hkv
    exact absurd hkv (List.not_mem_nil kv)
  · intro kv hkv
    rw [List.mem_singleton] at hkv
    subst hkv
    decide
  · decide
  · decide

theorem mapLookup_eq_empty_of_not_key (m : StagingMap) (k : ByteStr)
    (h : k ∉ m.map Prod.fst) : mapLookup m k = ∅ := by
  induction m with
  | nil => rfl
  | cons kv rest ih =>
    rw [mapLookup]
    rw [List.map_cons, List.mem_cons] at h
    push_neg at h
    rw [if_neg (fun hc : kv.1 = k => h.1 hc.symm)]
    exact ih h.2

theorem exists_split_of_mem_keys (m : StagingMap) (k : ByteStr)
    (hk : k ∈ m.map Prod.fst) (hnd : (m.map Prod.fst).Nodup) :
    ∃ l1 s l2, m = l1 ++ (k, s) :: l2 ∧ (∀ kv ∈ l1, kv.1 ≠ k) ∧
      (∀ kv ∈ l2, kv.1 ≠ k) ∧ mapLookup m k = s := by
  induction m with
  | nil => exact absurd hk (List.not_mem_nil k)
  | cons kv rest ih =>
    rw [List.map_cons, List.nodup_cons] at hnd
    by_cases hh : kv.1 = k
    · refine ⟨[], kv.2, rest, ?_, fun kv' hkv' => absurd hkv' (List.not_mem_nil kv'), ?_, ?_⟩
      · rw [List.nil_append, ← hh]
      · intro kv' hkv' hc
        exact hnd.1 (hh ▸ hc ▸ List.mem_map_of_mem Prod.fst hkv')
      · rw [mapLookup, if_pos hh]
    · rw [List.map_cons, List.mem_cons] at hk
      rcases hk with hk | hk
      · exact absurd hk.symm hh
      · obtain ⟨l1, s, l2, hm, h1, h2, hlook⟩ := ih hk hnd.2
        refine ⟨kv :: l1, s, l2, by rw [List.cons_append, hm], ?_, h2, ?_⟩
        · intro kv' hkv'
          rcases List.mem_cons.mp hkv' with rfl | hkv'
          · exact hh
          · exact h1 kv' hkv'
        · rw [mapLookup, if_neg hh, hlook]

theorem syncBatch_append (db : DB) (a b : StagingMap) :
    syncBatch db (a ++ b) = syncBatch db a ++ syncBatch db b := by
  unfold syncBatch
  rw [List.filterMap_append]

theorem mapLookup_sync_lands (db : DB) (m : StagingMap) (k : ByteStr)
    (hnd : (m.map Prod.fst).Nodup)
    (hnl : ∀ v ∈ mapLookup m k, '\n' ∉ v) :
    ∀ y ∈ mapLookup m k, y ≠ [] → y ∈ parseSet ((syncData true true db m).1 k) := by
  intro y hy hyne
  have hk : k ∈ m.map Prod.fst := by
    by_contra hk
    rw [mapLookup_eq_empty_of_not_key m k hk] at hy
    exact absurd hy (Finset.not_mem_empty y)
  obtain ⟨l1, s, l2, hm, h1, h2, hlook⟩ := exists_split_of_mem_keys m k hk hnd
  rw [hlook] at hy hnl
  show y ∈ parseSet (applyBatch db (syncBatch db m) k)
  rcases he : syncEntry db k s with _ | v
  · have hsub := (syncEntry_none_iff db k s).mp he
    have hnok : ∀ p ∈ syncBatch db m, p.1 ≠ k := by
      intro p hp hpk
      obtain ⟨s', hs', he'⟩ := mem_syncBatch db m p hp
      rw [hpk] at hs' he'
      rw [hm] at hs'
      rcases List.mem_append.mp hs' with hin | hin
      · exact h1 _ hin rfl
      · rcases List.mem_cons.mp hin with heq | hin
        · have hss : s' = s := (Prod.mk.injEq _ _ _ _).mp heq |>.2
          rw [hss, he] at he'
          exact Option.noConfusion he'
        · exact h2 _ hin rfl
    rw [applyBatch_no_key _ db k hnok]
    exact hsub hy
  · have hval := syncEntry_some db k s v he
    have hbatch : syncBatch db m =
        syncBatch db l1 ++ (k, v) :: syncBatch db l2 := by
      rw [hm, syncBatch_append]
      congr 1
      show List.filterMap _ ((k, s) :: l2) = (k, v) :: syncBatch db l2
      rw [List.filterMap_cons, he]
      rfl
    have hno2 : ∀ p ∈ syncBatch db l2, p.1 ≠ k := by
      intro p hp
      obtain ⟨s', hs', _⟩ := mem_syncBatch db l2 p hp
      exact fun hpk => h2 (p.1, s') hs' hpk
    rw [hbatch, applyBatch_last db _ _ k v hno2, hval]
    exact mem_parseSet_serialize _ y (Finset.mem_union_right _ hy) hyne
      (hnl y hy)

/-- Counterexample for claim C7 as stated: the stored inclusion
`D_Definition[u] ⊆ D_Reference[u]` is not unconditional.  The four syncs of
`jobDone` open independent databases and ignore the commit status, so the
Definition sync can succeed while the Reference sync's commit fails.
Concretely, with both staging maps equal to `stagedUL` (so the job-local
inclusion holds) over empty stores, a successful Definition sync persists
`"L"` under USR `"u"` while the failed-commit Reference sync leaves its
store empty — and even clears the reference staging map, so the staged
entry is lost. -/
theorem def_subset_ref_sync_fail :
    mapLookup stagedUL ['u'] ⊆ mapLookup stagedUL ['u'] ∧
    ['L'] ∈ parseSet ((syncData true true dbEmpty stagedUL).1 ['u']) ∧
    ['L'] ∉ parseSet ((syncData true false dbEmpty stagedUL).1 ['u']) ∧
    (syncData true false dbEmpty stagedUL).2.1 = [] := by
  refine ⟨subset_rfl, ?_, ?_, rfl⟩
  · exact mapLookup_sync_lands dbEmpty stagedUL ['u'] (by decide) (by decide)
      ['L'] (by decide) (by decide)
  · decide

/-- Claim C7 (amended): Definition ⊆ Reference.  `indexVisit` adds every
location it records into `m_defs[usr]` also into `m_refs[usr]`, so it
preserves pointwise inclusion of the job-local definition map in the
reference map; and for every sync cycle in which both the Definition and the
Reference category syncs open and commit successfully, syncing a definition
map pointwise included in a reference map (keys of the reference map unique,
as in a `QHash`; values newline-free, as location strings are) into stores
already satisfying the pointwise inclusion yields stores that still satisfy
it.  When the Reference sync fails while the Definition sync succeeds the
stored inclusion can be violated (`def_subset_ref_sync_fail`). -/
theorem def_subset_ref :
    (∀ c defs refs, (∀ u, mapLookup defs u ⊆ mapLookup refs u) →
      ∀ u, mapLookup (indexVisit c defs refs).1 u ⊆
        mapLookup (indexVisit c defs refs).2 u) ∧
    (∀ (dbD dbR : DB) (defs refs : StagingMap),
      (refs.map Prod.fst).Nodup →
      (∀ kv ∈ defs, ∀ v ∈ kv.2, '\n' ∉ v) →
      (∀ u, ∀ v ∈ mapLookup refs u, '\n' ∉ v) →
      (∀ kv ∈ defs, kv.2 ⊆ mapLookup refs kv.1) →
      (∀ u, parseSet (dbD u) ⊆ parseSet (dbR u)) →
      ∀ u, parseSet ((syncData true true dbD defs).1 u) ⊆
        parseSet ((syncData true true dbR refs).1 u)) := by
  constructor
  · intro c defs refs h u
    unfold indexVisit
    by_cases h1 : c.isAccessSpecifier = true
    · rw [if_pos h1]
      exact h u
    · rw [if_neg h1]
      by_cases h2 : (usrMissing c.usr && usrMissing c.refUsr) = true
      · rw [if_pos h2]
        exact h u
      · rw [if_neg h2]
        by_cases h3 : c.filename = []
        · rw [if_pos h3]
          exact h u
        · rw [if_neg h3]
          by_cases hd : c.isDefinition = true
          · rw [if_pos hd]
            by_cases hu : (if usrMissing c.usr then c.refUsr else c.usr) = u
            · show mapLookup (mapInsert defs _ _) u ⊆ mapLookup (mapInsert refs _ _) u
              rw [← hu, mapLookup_mapInsert_self, mapLookup_mapInsert_self]
              exact Finset.insert_subset_insert _ (h _)
            · show mapLookup (mapInsert defs _ _) u ⊆ mapLookup (mapInsert refs _ _) u
              rw [mapLookup_mapInsert_other _ _ _ _ hu, mapLookup_mapInsert_other _ _ _ _ hu]
              exact h u
          · rw [if_neg hd]
            by_cases hu : (if usrMissing c.usr then c.refUsr else c.usr) = u
            · show mapLookup defs u ⊆ mapLookup (mapInsert refs _ _) u
              rw [← hu, mapLookup_mapInsert_self]
              exact subset_trans (hu ▸ h u) (Finset.subset_insert _ _)
            · show mapLookup defs u ⊆ mapLookup (mapInsert refs _ _) u
              rw [mapLookup_mapInsert_other _ _ _ _ hu]
              exact h u
  · intro dbD dbR defs refs hnd hnlD hnlR hsub hdb u y hy
    show y ∈ parseSet ((syncData true true dbR refs).1 u)
    have hyD : y ∈ parseSet (applyBatch dbD (syncBatch dbD defs) u) := hy
    rcases applyBatch_eq_or_mem (syncBatch dbD defs) dbD u with h | ⟨p, hp, hpk, hval⟩
    · rw [h] at hyD
      exact parseSet_applyBatch_mono dbR refs u (hdb u hyD)
    · rw [hval] at hyD
      obtain ⟨s, hs, he⟩ := mem_syncBatch dbD defs p hp
      rw [syncEntry_some dbD p.1 s p.2 he] at hyD
      have hyne : y ≠ [] := mem_parseSet_ne_nil y _ hyD
      obtain ⟨x, hx, hyx⟩ := mem_parseSet_serialize_elim _ y hyD
      rcases Finset.mem_union.mp hx with hx | hx
      · rw [splitOnNl_of_no_nl x (mem_parseSet_no_nl x _ hx), List.mem_singleton] at hyx
        rw [hyx]
        rw [hpk] at hx
        exact parseSet_applyBatch_mono dbR refs u (hdb u hx)
      · rw [splitOnNl_of_no_nl x (hnlD (p.1, s) hs x hx), List.mem_singleton] at hyx
        rw [hyx] at hyne ⊢
        have hxr : x ∈ mapLookup refs u := by
          have hx2 := hsub (p.1, s) hs hx
          rw [hpk] at hx2
          exact hx2
        exact mapLookup_sync_lands dbR refs u hnd (hnlR u) x hxr hyne

/-- Witness for claim C7: visiting `cursorW` starting from empty job-local
maps yields maps with the definition set included in the reference set at
every USR, and syncing empty maps into empty stores preserves the stored
inclusion. -/
theorem def_subset_ref_witness :
    (∀ u, mapLookup (indexVisit cursorW [] []).1 u ⊆
      mapLookup (indexVisit cursorW [] []).2 u) ∧
    (∀ u, parseSet ((syncData true true dbEmpty []).1 u) ⊆
      parseSet ((syncData true true dbEmpty []).1 u)) := by
  refine ⟨def_subset_ref.1 cursorW [] [] (fun u => subset_rfl),
    def_subset_ref.2 dbEmpty dbEmpty [] [] (by decide) ?_ ?_ ?_ (fun u => subset_rfl)⟩
  · intro kv hkv
    exact absurd hkv (List.not_mem_nil kv)
  · intro u v hv
    rw [show mapLookup [] u = ∅ from rfl] at hv
    exact absurd hv (Finset.not_mem_empty v)
  · intro kv hkv
    exact absurd hkv (List.not_mem_nil kv)

/-- Claim C8 is violated by the code: on `"/a.c"` (any file directly in the
root directory) the basename loop never terminates.  The only slash is at
position 0 with no backslashes before it, so the `(backslashes % 2) || !idx`
branch fires, decrements `idx` to `-1` without hitting the `!idx` break, and
`lastIndexOf('/', -1)` restarts the search from the end of the string: the
loop step maps state `-1` back to state `-1`, so no fuel makes the loop
leave and the symbol map is never updated, although `"/a.c"` contains an
unescaped slash. -/
theorem addFilenameSymbol_diverges :
    filenameLoopStep slashAC (-1) = Sum.inl (-1) ∧
    (∀ fuel syms, addFilenameSymbol syms slashAC fuel = none) := by
  have hstep : filenameLoopStep slashAC (-1) = Sum.inl (-1) := by decide
  have hloop : ∀ fuel, filenameLoop slashAC fuel (-1) = none := by
    intro fuel
    induction fuel with
    | zero => rfl
    | succ f ih =>
      rw [filenameLoop, hstep]
      exact ih
  refine ⟨hstep, fun fuel syms => ?_⟩
  unfold addFilenameSymbol
  rw [hloop fuel]

/-- Validation of the embedding on a benign filename: on `"/ab/c"` the loop
leaves in one iteration at the last slash and records
`basename "c" → {"/ab/c"}`, as the spec's basename extraction describes. -/
theorem addFilenameSymbol_normal_path :
    addFilenameSymbol [] ['/', 'a', 'b', '/', 'c'] 1 =
      some [(['c'], {['/', 'a', 'b', '/', 'c']})] := by decide
